import Mathlib

/-!
# Knight's tour (Warnsdorff heuristic) — verification of `KnightTourText.cpp`

A shallow embedding of the console knight's-tour program.  The board is a
total function `Int → Int → Nat` holding the three cell states of the source
(`0` = unvisited, `1` = current, `2` = visited); coordinates are integers,
matching the C++ `int` arithmetic on offsets.  The recursive driver
`makeMove` is embedded as `makeMoveRun`, a well-founded recursion on an
explicit measure (twice the number of on-board cells not yet visited, plus an
indicator for a knight square that is off board or already visited), which at
the same time establishes its termination.
-/

set_option autoImplicit false

namespace KnightTour

/-- The chessboard: cell states indexed by (row, column).
`0` = unvisited, `1` = the knight is currently here, `2` = visited.
(`std::vector<std::vector<int>> Board` in the source.) -/
def Board : Type := Int → Int → Nat

/-- Writing one cell of the board (`Board[x][y] = v` in the source). -/
def updateBoard (B : Board) (x y : Int) (v : Nat) : Board :=
  fun i j => if i = x ∧ j = y then v else B i j

/-- `isOnBoard()` from the source: `(x >= 0) && (boardX > x) && (y >= 0) && (boardY > y)`. -/
def isOnBoard (x y boardX boardY : Int) : Bool :=
  (0 ≤ x) && (x < boardX) && (0 ≤ y) && (y < boardY)

/-- The eight knight-move offsets, pairing the source arrays
`dx[] = {2,1,-1,-2,-2,-1,1,2}` and `dy[] = {1,2,2,1,-1,-2,-2,-1}`
in loop order. -/
def knightOffsets : List (Int × Int) :=
  [(2, 1), (1, 2), (-1, 2), (-2, 1), (-2, -1), (-1, -2), (1, -2), (2, -1)]

/-- `findMovesFromSquare()` from the source: for each offset in order, form
the candidate `(x + dx[i], y + dy[i])` and keep it when it is on the board
and its cell is not `2` (visited). -/
def findMovesFromSquare (x y boardX boardY : Int) (B : Board) : List (Int × Int) :=
  (knightOffsets.map (fun d => (x + d.1, y + d.2))).filter
    (fun p => isOnBoard p.1 p.2 boardX boardY && (B p.1 p.2 != 2))

/-- Loop body of `findMinimumIndex()`: walks the remaining elements carrying
the running position `i` and the accumulator `(index, smallest)`, updating it
exactly when the element is strictly smaller than `smallest`. -/
def fmiAux : List Nat → Nat → Nat × Nat → Nat × Nat
  | [], _, acc => acc
  | v :: rest, i, acc =>
      if v < acc.2 then fmiAux rest (i + 1) (i, v)
      else fmiAux rest (i + 1) acc

/-- `findMinimumIndex()` from the source: index of the first occurrence of the
minimum.  The source reads `vec[0]` unconditionally (undefined on an empty
vector); the program only calls it on non-empty vectors, and on `[]` the
model returns `0`. -/
def findMinimumIndex (vec : List Nat) : Nat :=
  match vec with
  | [] => 0
  | v :: rest => (fmiAux rest 1 (0, v)).1

/-- The `sizes` vector built in `makeMove()`: the number of onward moves of
each candidate, on the current (pre-move) board. -/
def sizesFor (boardX boardY : Int) (B : Board) (array : List (Int × Int)) : List Nat :=
  array.map (fun p => (findMovesFromSquare p.1 p.2 boardX boardY B).length)

/-- The second-order count of a candidate square: how many legal moves the
knight would have from there, on the current board. -/
def secondOrderCount (boardX boardY : Int) (B : Board) (p : Int × Int) : Nat :=
  (findMovesFromSquare p.1 p.2 boardX boardY B).length

/-- The candidate `makeMove()` selects from a given state:
`array[findMinimumIndex(sizes)]`. -/
def chosenMove (boardX boardY : Int) (B : Board) (knightRow knightCol : Int) : Int × Int :=
  let array := findMovesFromSquare knightRow knightCol boardX boardY B
  array.getD (findMinimumIndex (sizesFor boardX boardY B array)) (0, 0)

/-- One iteration of `makeMove()`'s body as a step function on
(board, knight row, knight column): `none` when the candidate set is empty
(the recursion stops), otherwise the updated state after marking the current
square `2`, the selected square `1`, and moving the knight there. -/
def tourStep (boardX boardY : Int) (s : Board × Int × Int) : Option (Board × Int × Int) :=
  let array := findMovesFromSquare s.2.1 s.2.2 boardX boardY s.1
  if array = [] then none
  else
    let sizes := sizesFor boardX boardY s.1 array
    let index := findMinimumIndex sizes
    let nextMove := array.getD index (0, 0)
    some (updateBoard (updateBoard s.1 s.2.1 s.2.2 2) nextMove.1 nextMove.2 1,
          nextMove.1, nextMove.2)

/-- The on-board cells of a `boardX × boardY` board. -/
def boardFinset (boardX boardY : Int) : Finset (Int × Int) :=
  Finset.Ico 0 boardX ×ˢ Finset.Ico 0 boardY

/-- Number of on-board cells whose state is not `2` (visited). -/
def unvisitedCount (boardX boardY : Int) (B : Board) : Nat :=
  ((boardFinset boardX boardY).filter (fun p => B p.1 p.2 ≠ 2)).card

/-- Termination measure for the driver: twice the unvisited-cell count, plus
`1` when the knight square is off board or already visited. -/
def measureFn (boardX boardY : Int) (B : Board) (knightRow knightCol : Int) : Nat :=
  2 * unvisitedCount boardX boardY B +
    (if isOnBoard knightRow knightCol boardX boardY = true ∧ B knightRow knightCol ≠ 2
     then 0 else 1)

/-- `getD` through `map`: for an in-bounds index, reading the mapped list is
mapping the read element (any defaults). -/
theorem getD_map {α β : Type} (f : α → β) (d : β) (d' : α) :
    ∀ (l : List α) (j : Nat), j < l.length → (l.map f).getD j d = f (l.getD j d')
  | a :: t, 0, _ => rfl
  | a :: t, j + 1, h => by
      simpa [List.getD_cons_succ] using
        getD_map f d d' t j (by simpa using Nat.lt_of_succ_lt_succ h)

/-- An in-bounds `getD` read is a member of the list. -/
theorem getD_mem {α : Type} (d : α) :
    ∀ (l : List α) (j : Nat), j < l.length → l.getD j d ∈ l
  | a :: t, 0, _ => List.mem_cons_self a t
  | a :: t, j + 1, h => by
      simpa [List.getD_cons_succ] using
        List.mem_cons_of_mem a (getD_mem d t j (by simpa using Nat.lt_of_succ_lt_succ h))

/-- Invariant of the `findMinimumIndex` loop: the accumulator either survives
untouched or is replaced by an element of the remaining list that is strictly
smaller than the incoming `smallest` and than every element scanned before it;
in all cases the final `smallest` is a lower bound of everything scanned. -/
theorem fmiAux_spec (l : List Nat) : ∀ (i : Nat) (acc : Nat × Nat),
    (fmiAux l i acc = acc ∨
      ∃ j, j < l.length ∧ (fmiAux l i acc).1 = i + j ∧
        (fmiAux l i acc).2 = l.getD j 0 ∧ (fmiAux l i acc).2 < acc.2 ∧
        ∀ k, k < j → (fmiAux l i acc).2 < l.getD k 0) ∧
    (fmiAux l i acc).2 ≤ acc.2 ∧
    (∀ j, j < l.length → (fmiAux l i acc).2 ≤ l.getD j 0) := by
  induction l with
  | nil =>
      intro i acc
      exact ⟨Or.inl rfl, le_refl _, fun j hj => absurd hj (by simp)⟩
  | cons v rest ih =>
      intro i acc
      by_cases hv : v < acc.2
      · have hstep : fmiAux (v :: rest) i acc = fmiAux rest (i + 1) (i, v) := by
          simp [fmiAux, hv]
        obtain ⟨hcase, hle, hall⟩ := ih (i + 1) (i, v)
        rw [hstep]
        refine ⟨?_, le_trans hle (le_of_lt hv), ?_⟩
        · rcases hcase with heq | ⟨j, hj, h1, h2, h3, h4⟩
          · right
            refine ⟨0, by simp, by rw [heq]; simp, by rw [heq]; simp, by rw [heq]; exact hv,
              fun k hk => absurd hk (Nat.not_lt_zero k)⟩
          · right
            refine ⟨j + 1, by simpa using Nat.succ_lt_succ hj, by rw [h1]; omega,
              by rw [h2]; simp [List.getD_cons_succ], lt_trans h3 hv, ?_⟩
            intro k hk
            cases k with
            | zero => simpa using h3
            | succ k' => simpa [List.getD_cons_succ] using h4 k' (by omega)
        · intro j hj
          cases j with
          | zero => simpa using hle
          | succ k => simpa [List.getD_cons_succ] using hall k (by simpa using hj)
      · have hstep : fmiAux (v :: rest) i acc = fmiAux rest (i + 1) acc := by
          simp [fmiAux, hv]
        obtain ⟨hcase, hle, hall⟩ := ih (i + 1) acc
        rw [hstep]
        refine ⟨?_, hle, ?_⟩
        · rcases hcase with heq | ⟨j, hj, h1, h2, h3, h4⟩
          · exact Or.inl heq
          · right
            refine ⟨j + 1, by simpa using Nat.succ_lt_succ hj, by rw [h1]; omega,
              by rw [h2]; simp [List.getD_cons_succ], h3, ?_⟩
            intro k hk
            cases k with
            | zero =>
                simp only [List.getD_cons_zero]
                exact lt_of_lt_of_le h3 (not_lt.mp hv)
            | succ k' => simpa [List.getD_cons_succ] using h4 k' (by omega)
        · intro j hj
          cases j with
          | zero =>
              simp only [List.getD_cons_zero]
              exact le_trans hle (not_lt.mp hv)
          | succ k => simpa [List.getD_cons_succ] using hall k (by simpa using hj)

/-- `findMinimumIndex` on a non-empty vector returns an in-bounds index whose
element is a minimum, and every strictly earlier element is strictly larger
(the scan keeps the first occurrence of the minimum). -/
theorem findMinimumIndex_spec (vec : List Nat) (h : vec ≠ []) :
    findMinimumIndex vec < vec.length ∧
    (∀ j, j < vec.length →
      vec.getD (findMinimumIndex vec) 0 ≤ vec.getD j 0) ∧
    (∀ j, j < findMinimumIndex vec →
      vec.getD (findMinimumIndex vec) 0 < vec.getD j 0) := by
  cases vec with
  | nil => exact absurd rfl h
  | cons v rest =>
      obtain ⟨hcase, hle, hall⟩ := fmiAux_spec rest 1 (0, v)
      have hidx : findMinimumIndex (v :: rest) = (fmiAux rest 1 (0, v)).1 := rfl
      rcases hcase with heq | ⟨j, hj, h1, h2, h3, h4⟩
      · rw [hidx, heq]
        refine ⟨by simp, ?_, fun k hk => absurd hk (by simp)⟩
        intro k hk
        cases k with
        | zero => simp
        | succ k' =>
            have := hall k' (by simpa using hk)
            rw [heq] at this
            simpa [List.getD_cons_succ] using this
      · have hval : (v :: rest).getD (fmiAux rest 1 (0, v)).1 0 =
            (fmiAux rest 1 (0, v)).2 := by
          rw [h1, Nat.add_comm 1 j, List.getD_cons_succ, h2]
        rw [hidx, hval]
        refine ⟨?_, ?_, ?_⟩
        · rw [h1]
          simp only [List.length_cons]
          omega
        · intro k hk
          cases k with
          | zero => simpa using le_of_lt h3
          | succ k' => simpa [List.getD_cons_succ] using hall k' (by simpa using hk)
        · intro k hk
          rw [h1, Nat.add_comm 1 j] at hk
          cases k with
          | zero => simpa using h3
          | succ k' => simpa [List.getD_cons_succ] using h4 k' (by omega)

/-- Unfolding `isOnBoard` to its arithmetic meaning. -/
theorem isOnBoard_iff {x y boardX boardY : Int} :
    isOnBoard x y boardX boardY = true ↔
      0 ≤ x ∧ x < boardX ∧ 0 ≤ y ∧ y < boardY := by
  simp [isOnBoard, and_assoc]

/-- Membership in the cell set of the board. -/
theorem mem_boardFinset {boardX boardY : Int} {p : Int × Int} :
    p ∈ boardFinset boardX boardY ↔
      0 ≤ p.1 ∧ p.1 < boardX ∧ 0 ≤ p.2 ∧ p.2 < boardY := by
  simp [boardFinset, Finset.mem_product, Finset.mem_Ico, and_assoc]

/-- Every candidate emitted by the move generator comes from one of the eight
offsets, lies on the board, and is not on a visited cell. -/
theorem mem_findMovesFromSquare {x y boardX boardY : Int} {B : Board} {p : Int × Int}
    (hp : p ∈ findMovesFromSquare x y boardX boardY B) :
    (∃ d ∈ knightOffsets, p = (x + d.1, y + d.2)) ∧
    isOnBoard p.1 p.2 boardX boardY = true ∧ B p.1 p.2 ≠ 2 := by
  unfold findMovesFromSquare at hp
  rw [List.mem_filter] at hp
  obtain ⟨hmem, hcond⟩ := hp
  rw [List.mem_map] at hmem
  obtain ⟨d, hd, hpd⟩ := hmem
  have hb : isOnBoard p.1 p.2 boardX boardY = true ∧ (B p.1 p.2 != 2) = true := by
    simpa [Bool.and_eq_true] using hcond
  exact ⟨⟨d, hd, hpd.symm⟩, hb.1, by simpa using hb.2⟩

/-- No knight offset has a zero row component. -/
theorem knightOffsets_fst_ne_zero : ∀ d ∈ knightOffsets, d.1 ≠ 0 := by decide

/-- A candidate returned by the move generator is never the source square
itself (every offset moves the row). -/
theorem mem_findMovesFromSquare_ne_source {x y boardX boardY : Int} {B : Board}
    {p : Int × Int} (hp : p ∈ findMovesFromSquare x y boardX boardY B) :
    p ≠ (x, y) := by
  obtain ⟨⟨d, hd, hpd⟩, _, _⟩ := mem_findMovesFromSquare hp
  intro hcontra
  rw [hpd] at hcontra
  have h1 : x + d.1 = x := congrArg Prod.fst hcontra
  exact knightOffsets_fst_ne_zero d hd (by omega)

/-- Reading an updated cell. -/
theorem updateBoard_same (B : Board) (x y : Int) (v : Nat) :
    updateBoard B x y v x y = v := by
  simp [updateBoard]

/-- Reading any other cell after an update. -/
theorem updateBoard_other (B : Board) (x y : Int) (v : Nat) (i j : Int)
    (h : ¬(i = x ∧ j = y)) : updateBoard B x y v i j = B i j := by
  simp [updateBoard, h]

/-- The step function halts exactly on an empty candidate set. -/
theorem tourStep_none_iff {boardX boardY : Int} {s : Board × Int × Int} :
    tourStep boardX boardY s = none ↔
      findMovesFromSquare s.2.1 s.2.2 boardX boardY s.1 = [] := by
  by_cases h : findMovesFromSquare s.2.1 s.2.2 boardX boardY s.1 = [] <;>
    simp [tourStep, h]

/-- With a non-empty candidate set, the index `makeMove` selects is in bounds
for the candidate vector. -/
theorem chosenMove_index_lt {boardX boardY : Int} {B : Board} {kr kc : Int}
    (h : findMovesFromSquare kr kc boardX boardY B ≠ []) :
    findMinimumIndex (sizesFor boardX boardY B (findMovesFromSquare kr kc boardX boardY B)) <
      (findMovesFromSquare kr kc boardX boardY B).length := by
  have hlen : (sizesFor boardX boardY B (findMovesFromSquare kr kc boardX boardY B)).length =
      (findMovesFromSquare kr kc boardX boardY B).length := List.length_map _ _
  have hne : sizesFor boardX boardY B (findMovesFromSquare kr kc boardX boardY B) ≠ [] := by
    intro hc
    apply h
    have : (findMovesFromSquare kr kc boardX boardY B).length = 0 := by
      rw [← hlen, hc]; rfl
    exact List.length_eq_zero.mp this
  have := (findMinimumIndex_spec _ hne).1
  rwa [hlen] at this

/-- The selected candidate is a member of the candidate set. -/
theorem chosenMove_mem {boardX boardY : Int} {B : Board} {kr kc : Int}
    (h : findMovesFromSquare kr kc boardX boardY B ≠ []) :
    chosenMove boardX boardY B kr kc ∈ findMovesFromSquare kr kc boardX boardY B := by
  unfold chosenMove
  exact getD_mem _ _ _ (chosenMove_index_lt h)

/-- Shape of a successful step: the candidate set was non-empty, and the new
state marks the old square `2`, the selected square `1`, and moves there. -/
theorem tourStep_some_elim {boardX boardY : Int} {B : Board} {kr kc : Int}
    {s' : Board × Int × Int} (h : tourStep boardX boardY (B, kr, kc) = some s') :
    findMovesFromSquare kr kc boardX boardY B ≠ [] ∧
    chosenMove boardX boardY B kr kc ∈ findMovesFromSquare kr kc boardX boardY B ∧
    s' = (updateBoard (updateBoard B kr kc 2)
            (chosenMove boardX boardY B kr kc).1 (chosenMove boardX boardY B kr kc).2 1,
          (chosenMove boardX boardY B kr kc).1, (chosenMove boardX boardY B kr kc).2) := by
  by_cases hne : findMovesFromSquare kr kc boardX boardY B = []
  · simp [tourStep, hne] at h
  · refine ⟨hne, chosenMove_mem hne, ?_⟩
    simp only [tourStep, hne, if_false, chosenMove, Option.some.injEq] at h
    exact h.symm

/-- After a step the set of on-board not-visited cells is the old set with
the departed square removed (which is a no-op when that square was off board
or already visited). -/
theorem filter_update_step (boardX boardY : Int) (B : Board) (kr kc : Int)
    (nm : Int × Int) (hon : isOnBoard nm.1 nm.2 boardX boardY = true)
    (h2 : B nm.1 nm.2 ≠ 2) (hne : nm ≠ (kr, kc)) :
    (boardFinset boardX boardY).filter
        (fun p => updateBoard (updateBoard B kr kc 2) nm.1 nm.2 1 p.1 p.2 ≠ 2) =
      ((boardFinset boardX boardY).filter (fun p => B p.1 p.2 ≠ 2)).erase (kr, kc) := by
  ext p
  simp only [Finset.mem_filter, Finset.mem_erase]
  by_cases hpn : p = nm
  · subst hpn
    have hval : updateBoard (updateBoard B kr kc 2) p.1 p.2 1 p.1 p.2 = 1 :=
      updateBoard_same _ _ _ _
    have hmem : p ∈ boardFinset boardX boardY :=
      mem_boardFinset.mpr (isOnBoard_iff.mp hon)
    simp [hval, hmem, hne, h2]
  · by_cases hpk : p = (kr, kc)
    · subst hpk
      have hnm' : ¬((kr : Int) = nm.1 ∧ (kc : Int) = nm.2) := by
        intro hc
        exact hne (Prod.ext_iff.mpr ⟨hc.1.symm, hc.2.symm⟩)
      have hval : updateBoard (updateBoard B kr kc 2) nm.1 nm.2 1 kr kc = 2 := by
        rw [updateBoard_other _ _ _ _ _ _ hnm']
        exact updateBoard_same _ _ _ _
      simp [hval]
    · have hnm' : ¬(p.1 = nm.1 ∧ p.2 = nm.2) := by
        intro hc
        exact hpn (Prod.ext_iff.mpr hc)
      have hkk' : ¬(p.1 = kr ∧ p.2 = kc) := by
        intro hc
        exact hpk (Prod.ext_iff.mpr hc)
      have hval : updateBoard (updateBoard B kr kc 2) nm.1 nm.2 1 p.1 p.2 = B p.1 p.2 := by
        rw [updateBoard_other _ _ _ _ _ _ hnm', updateBoard_other _ _ _ _ _ _ hkk']
      simp [hval, hpk]

/-- Every successful step strictly decreases the termination measure. -/
theorem tourStep_measure_lt {boardX boardY : Int} {B : Board} {kr kc : Int}
    {s' : Board × Int × Int} (h : tourStep boardX boardY (B, kr, kc) = some s') :
    measureFn boardX boardY s'.1 s'.2.1 s'.2.2 < measureFn boardX boardY B kr kc := by
  obtain ⟨hne, hmem, hs'⟩ := tourStep_some_elim h
  obtain ⟨-, hon, h2⟩ := mem_findMovesFromSquare hmem
  have hnsrc : chosenMove boardX boardY B kr kc ≠ (kr, kc) :=
    mem_findMovesFromSquare_ne_source hmem
  have hfilter := filter_update_step boardX boardY B kr kc
    (chosenMove boardX boardY B kr kc) hon h2 hnsrc
  have hB' : updateBoard (updateBoard B kr kc 2)
      (chosenMove boardX boardY B kr kc).1 (chosenMove boardX boardY B kr kc).2 1
      (chosenMove boardX boardY B kr kc).1 (chosenMove boardX boardY B kr kc).2 = 1 :=
    updateBoard_same _ _ _ _
  rw [hs']
  simp only [measureFn, unvisitedCount]
  rw [hfilter]
  rw [if_pos ⟨hon, by rw [hB']; omega⟩]
  have hcond : ((kr, kc) ∈ (boardFinset boardX boardY).filter (fun p => B p.1 p.2 ≠ 2)) ↔
      (isOnBoard kr kc boardX boardY = true ∧ B kr kc ≠ 2) := by
    simp only [Finset.mem_filter, mem_boardFinset, isOnBoard_iff]
  by_cases hk : (kr, kc) ∈ (boardFinset boardX boardY).filter (fun p => B p.1 p.2 ≠ 2)
  · have hcard := Finset.card_erase_of_mem hk
    have hpos : 0 < ((boardFinset boardX boardY).filter (fun p => B p.1 p.2 ≠ 2)).card :=
      Finset.card_pos.mpr ⟨_, hk⟩
    rw [if_pos (hcond.mp hk), hcard]
    omega
  · have hcard : (((boardFinset boardX boardY).filter (fun p => B p.1 p.2 ≠ 2)).erase
        (kr, kc)).card = ((boardFinset boardX boardY).filter (fun p => B p.1 p.2 ≠ 2)).card := by
      rw [Finset.erase_eq_of_not_mem hk]
    rw [if_neg (fun hc => hk (hcond.mpr hc)), hcard]
    omega

/-- Everything `makeMove` computes and exposes: the final board, the final
knight square, the sequence of squares moved to (the boards printed by
`printBoard` are determined by it), and the number of moves made. -/
structure RunResult where
  board : Board
  knightRow : Int
  knightCol : Int
  trace : List (Int × Int)
  movesMade : Nat

/-- `makeMove()` from the source as a function of its inputs: the board is
passed by value, and each level either stops (empty candidate set) or marks
the current square `2`, the selected square `1`, moves the knight, counts the
move, and recurses.  Well-founded recursion on `measureFn` — this is the
termination argument for the source's recursion. -/
def makeMoveRun (B : Board) (boardX boardY knightRow knightCol : Int) : RunResult :=
  match h : tourStep boardX boardY (B, knightRow, knightCol) with
  | none => ⟨B, knightRow, knightCol, [], 0⟩
  | some s' =>
      let rest := makeMoveRun s'.1 boardX boardY s'.2.1 s'.2.2
      ⟨rest.board, rest.knightRow, rest.knightCol, s'.2 :: rest.trace, rest.movesMade + 1⟩
  termination_by measureFn boardX boardY B knightRow knightCol
  decreasing_by exact tourStep_measure_lt h

/-- The `movesMade` reference threaded through `makeMove()`: its value when
the recursion returns, given its value on entry. -/
def makeMove (B : Board) (boardX boardY knightRow knightCol : Int) (movesMade : Nat) : Nat :=
  movesMade + (makeMoveRun B boardX boardY knightRow knightCol).movesMade

/-- The board `main()` builds: all cells `0`, then `Board[start] = 1`. -/
def initBoard (startRow startCol : Int) : Board :=
  updateBoard (fun _ _ => 0) startRow startCol 1

/-- The final report in `main()`: success exactly when
`movesMade == boardX * boardY - 1`. -/
def exitMessage (boardX boardY : Int) (movesMade : Nat) : String :=
  if (movesMade : Int) = boardX * boardY - 1 then "Tour Completed!" else "No More Moves!"

/-- The acceptance test of `inputInteger()`: the typed integer is kept only
when it lies within the inclusive bounds. -/
def inputIntegerAccepts (lowerBound upperBound i : Int) : Bool :=
  (lowerBound ≤ i) && (i ≤ upperBound)

/-- `main()` after the input phase, for a `rows × cols` board and a 0-indexed
start square: the final move count and the printed outcome message. -/
def mainOutcome (rows cols startRow startCol : Int) : Nat × String :=
  let movesMade := makeMove (initBoard startRow startCol) rows cols startRow startCol 0
  (movesMade, exitMessage rows cols movesMade)

/-- Iterating the step function: the state after `n` successful steps, or
`none` if the driver halted within the first `n` steps. -/
def iterTour (boardX boardY : Int) : Board × Int × Int → Nat → Option (Board × Int × Int)
  | s, 0 => some s
  | s, n + 1 =>
      match tourStep boardX boardY s with
      | none => none
      | some t => iterTour boardX boardY t n

/-- A run of the Tour Driver as a relation: from a state, either halt with an
empty candidate set (no squares visited, zero moves), or take the step the
code takes and continue.  Relates the start state to the sequence of squares
moved to and the number of moves made. -/
inductive TourRun (boardX boardY : Int) :
    Board × Int × Int → List (Int × Int) → Nat → Prop where
  | halt (s : Board × Int × Int)
      (h : findMovesFromSquare s.2.1 s.2.2 boardX boardY s.1 = []) :
      TourRun boardX boardY s [] 0
  | step (s s' : Board × Int × Int) (h : tourStep boardX boardY s = some s')
      (tr : List (Int × Int)) (n : Nat) (hrest : TourRun boardX boardY s' tr n) :
      TourRun boardX boardY s (s'.2 :: tr) (n + 1)

/-- The active-run invariant: the knight square is on the board, holds state
`1`, and is the only on-board cell holding state `1`. -/
def UniqueCurrent (boardX boardY : Int) (s : Board × Int × Int) : Prop :=
  isOnBoard s.2.1 s.2.2 boardX boardY = true ∧ s.1 s.2.1 s.2.2 = 1 ∧
  ∀ p ∈ boardFinset boardX boardY, s.1 p.1 p.2 = 1 → p = (s.2.1, s.2.2)

/-- Unfolding `makeMoveRun` at a halted state: nothing changes, no moves. -/
theorem makeMoveRun_halt {B : Board} {boardX boardY kr kc : Int}
    (h : tourStep boardX boardY (B, kr, kc) = none) :
    makeMoveRun B boardX boardY kr kc = ⟨B, kr, kc, [], 0⟩ := by
  rw [makeMoveRun.eq_def]
  split
  · rfl
  · rename_i s' heq
    rw [h] at heq
    exact absurd heq (by simp)

/-- Unfolding `makeMoveRun` at a state with a successful step. -/
theorem makeMoveRun_step {B : Board} {boardX boardY kr kc : Int}
    {s' : Board × Int × Int} (h : tourStep boardX boardY (B, kr, kc) = some s') :
    makeMoveRun B boardX boardY kr kc =
      ⟨(makeMoveRun s'.1 boardX boardY s'.2.1 s'.2.2).board,
       (makeMoveRun s'.1 boardX boardY s'.2.1 s'.2.2).knightRow,
       (makeMoveRun s'.1 boardX boardY s'.2.1 s'.2.2).knightCol,
       s'.2 :: (makeMoveRun s'.1 boardX boardY s'.2.1 s'.2.2).trace,
       (makeMoveRun s'.1 boardX boardY s'.2.1 s'.2.2).movesMade + 1⟩ := by
  rw [makeMoveRun.eq_def]
  split
  · rename_i heq
    rw [h] at heq
    exact absurd heq (by simp)
  · rename_i s'' heq
    rw [h] at heq
    obtain rfl : s'' = s' := (Option.some.inj heq).symm
    rfl

/-- A good knight square (on board, not visited) is an unvisited cell of the
board, so the unvisited count is positive. -/
theorem unvisitedCount_pos {boardX boardY : Int} {B : Board} {kr kc : Int}
    (hon : isOnBoard kr kc boardX boardY = true) (hB : B kr kc ≠ 2) :
    0 < unvisitedCount boardX boardY B := by
  apply Finset.card_pos.mpr
  exact ⟨(kr, kc), Finset.mem_filter.mpr ⟨mem_boardFinset.mpr (isOnBoard_iff.mp hon), hB⟩⟩

/-- A successful step from a good knight square decreases the unvisited count
by exactly one, and lands on a good knight square again. -/
theorem tourStep_unvisited {boardX boardY : Int} {B : Board} {kr kc : Int}
    {s' : Board × Int × Int} (h : tourStep boardX boardY (B, kr, kc) = some s')
    (hon : isOnBoard kr kc boardX boardY = true) (hB : B kr kc ≠ 2) :
    unvisitedCount boardX boardY s'.1 + 1 = unvisitedCount boardX boardY B ∧
    isOnBoard s'.2.1 s'.2.2 boardX boardY = true ∧ s'.1 s'.2.1 s'.2.2 ≠ 2 := by
  obtain ⟨hne, hmem, hs'⟩ := tourStep_some_elim h
  obtain ⟨-, hon', h2'⟩ := mem_findMovesFromSquare hmem
  have hnsrc : chosenMove boardX boardY B kr kc ≠ (kr, kc) :=
    mem_findMovesFromSquare_ne_source hmem
  have hfilter := filter_update_step boardX boardY B kr kc
    (chosenMove boardX boardY B kr kc) hon' h2' hnsrc
  have hk : (kr, kc) ∈ (boardFinset boardX boardY).filter (fun p => B p.1 p.2 ≠ 2) :=
    Finset.mem_filter.mpr ⟨mem_boardFinset.mpr (isOnBoard_iff.mp hon), hB⟩
  have hpos : 0 < ((boardFinset boardX boardY).filter (fun p => B p.1 p.2 ≠ 2)).card :=
    Finset.card_pos.mpr ⟨_, hk⟩
  refine ⟨?_, ?_, ?_⟩
  · rw [hs']
    simp only [unvisitedCount]
    rw [hfilter, Finset.card_erase_of_mem hk]
    omega
  · rw [hs']
    exact hon'
  · rw [hs']
    simp only
    rw [updateBoard_same]
    omega

/-- From any good knight square, `makeMove` makes strictly fewer moves than
there are unvisited cells on the board. -/
theorem makeMoveRun_moves_lt (B : Board) (boardX boardY kr kc : Int)
    (hon : isOnBoard kr kc boardX boardY = true) (hB : B kr kc ≠ 2) :
    (makeMoveRun B boardX boardY kr kc).movesMade + 1 ≤ unvisitedCount boardX boardY B := by
  induction B, boardX, boardY, kr, kc using makeMoveRun.induct with
  | case1 B bX bY kr kc h =>
      rw [makeMoveRun_halt h]
      simpa using unvisitedCount_pos hon hB
  | case2 B bX bY kr kc s' h ih =>
      obtain ⟨hdec, hon', hB'⟩ := tourStep_unvisited h hon hB
      rw [makeMoveRun_step h]
      have := ih hon' hB'
      simp only
      omega

/-- The board `main()` starts from has no visited cell, so its unvisited count
is the full cell count `rows * cols`. -/
theorem unvisitedCount_initBoard (rows cols startRow startCol : Int) :
    unvisitedCount rows cols (initBoard startRow startCol) =
      rows.toNat * cols.toNat := by
  unfold unvisitedCount
  have hfull : (boardFinset rows cols).filter
      (fun p => initBoard startRow startCol p.1 p.2 ≠ 2) = boardFinset rows cols := by
    apply Finset.filter_true_of_mem
    intro p _
    unfold initBoard updateBoard
    by_cases hp : p.1 = startRow ∧ p.2 = startCol <;> simp [hp]
  rw [hfull]
  unfold boardFinset
  rw [Finset.card_product]
  simp [Int.card_Ico]

/-- A step never un-marks a visited cell: state `2` is preserved. -/
theorem tourStep_visited_mono {boardX boardY : Int} {s s' : Board × Int × Int}
    (h : tourStep boardX boardY s = some s') {x y : Int} (hxy : s.1 x y = 2) :
    s'.1 x y = 2 := by
  obtain ⟨B, kr, kc⟩ := s
  obtain ⟨hne, hmem, hs'⟩ := tourStep_some_elim h
  obtain ⟨-, -, h2'⟩ := mem_findMovesFromSquare hmem
  rw [hs']
  simp only
  by_cases hnm : x = (chosenMove boardX boardY B kr kc).1 ∧
      y = (chosenMove boardX boardY B kr kc).2
  · exfalso
    apply h2'
    rw [← hnm.1, ← hnm.2]
    exact hxy
  · rw [updateBoard_other _ _ _ _ _ _ hnm]
    by_cases hkk : x = kr ∧ y = kc
    · rw [hkk.1, hkk.2]
      exact updateBoard_same _ _ _ _
    · rw [updateBoard_other _ _ _ _ _ _ hkk]
      exact hxy

/-- A step preserves the active-run invariant: the new knight square is on the
board, holds `1`, and is the unique on-board cell holding `1`. -/
theorem tourStep_uniqueCurrent {boardX boardY : Int} {s s' : Board × Int × Int}
    (h : tourStep boardX boardY s = some s') (hinv : UniqueCurrent boardX boardY s) :
    UniqueCurrent boardX boardY s' := by
  obtain ⟨B, kr, kc⟩ := s
  obtain ⟨hb_on, hb1, huniq⟩ := hinv
  obtain ⟨hne, hmem, hs'⟩ := tourStep_some_elim h
  obtain ⟨-, hon', h2'⟩ := mem_findMovesFromSquare hmem
  rw [hs']
  refine ⟨hon', ?_, ?_⟩
  · simp only
    exact updateBoard_same _ _ _ _
  · intro p hp hp1
    simp only at hp1 ⊢
    by_cases hpn : p.1 = (chosenMove boardX boardY B kr kc).1 ∧
        p.2 = (chosenMove boardX boardY B kr kc).2
    · exact Prod.ext_iff.mpr hpn
    · rw [updateBoard_other _ _ _ _ _ _ hpn] at hp1
      by_cases hpk : p.1 = kr ∧ p.2 = kc
      · exfalso
        rw [hpk.1, hpk.2, updateBoard_same] at hp1
        omega
      · rw [updateBoard_other _ _ _ _ _ _ hpk] at hp1
        have hcontra := huniq p hp hp1
        exact absurd ⟨by rw [hcontra], by rw [hcontra]⟩ hpk

/-- Splitting an iteration of the step function. -/
theorem iterTour_add (boardX boardY : Int) (k : Nat) :
    ∀ (n : Nat) (s : Board × Int × Int),
      iterTour boardX boardY s (n + k) =
        match iterTour boardX boardY s n with
        | none => none
        | some t => iterTour boardX boardY t k := by
  intro n
  induction n with
  | zero =>
      intro s
      simp [iterTour]
  | succ n ih =>
      intro s
      have harith : n + 1 + k = (n + k) + 1 := by omega
      rw [harith]
      cases h : tourStep boardX boardY s with
      | none => simp [iterTour, h]
      | some t => simp [iterTour, h, ih t]

/-- A visited cell stays visited through any number of further steps. -/
theorem iterTour_visited_persist (boardX boardY : Int) (k : Nat) :
    ∀ (s t : Board × Int × Int) (x y : Int), s.1 x y = 2 →
      iterTour boardX boardY s k = some t → t.1 x y = 2 := by
  induction k with
  | zero =>
      intro s t x y h2 hit
      simp [iterTour] at hit
      rw [← hit]
      exact h2
  | succ k ih =>
      intro s t x y h2 hit
      cases h : tourStep boardX boardY s with
      | none => simp [iterTour, h] at hit
      | some u =>
          simp [iterTour, h] at hit
          exact ih u t x y (tourStep_visited_mono h h2) hit

/-- The active-run invariant is preserved through any number of steps. -/
theorem iterTour_uniqueCurrent (boardX boardY : Int) (n : Nat) :
    ∀ (s t : Board × Int × Int), UniqueCurrent boardX boardY s →
      iterTour boardX boardY s n = some t → UniqueCurrent boardX boardY t := by
  induction n with
  | zero =>
      intro s t hinv hit
      simp [iterTour] at hit
      rw [← hit]
      exact hinv
  | succ n ih =>
      intro s t hinv hit
      cases h : tourStep boardX boardY s with
      | none => simp [iterTour, h] at hit
      | some u =>
          simp [iterTour, h] at hit
          exact ih u t (tourStep_uniqueCurrent h hinv) hit

/-- The run relation holds of exactly what `makeMove` computes: its trace of
squares and its move count. -/
theorem tourRun_makeMoveRun (boardX boardY : Int) (B : Board) (kr kc : Int) :
    TourRun boardX boardY (B, kr, kc) (makeMoveRun B boardX boardY kr kc).trace
      (makeMoveRun B boardX boardY kr kc).movesMade := by
  induction B, boardX, boardY, kr, kc using makeMoveRun.induct with
  | case1 B bX bY kr kc h =>
      rw [makeMoveRun_halt h]
      exact TourRun.halt _ (tourStep_none_iff.mp h)
  | case2 B bX bY kr kc s' h ih =>
      rw [makeMoveRun_step h]
      exact TourRun.step _ _ h _ _ ih

/-- The run relation is right-unique: from one start state only one trace and
one move count are derivable. -/
theorem tourRun_deterministic {boardX boardY : Int} {s : Board × Int × Int}
    {tr₁ tr₂ : List (Int × Int)} {n₁ n₂ : Nat}
    (h1 : TourRun boardX boardY s tr₁ n₁) (h2 : TourRun boardX boardY s tr₂ n₂) :
    tr₁ = tr₂ ∧ n₁ = n₂ := by
  induction h1 generalizing tr₂ n₂ with
  | halt s hempty =>
      cases h2 with
      | halt _ _ => exact ⟨rfl, rfl⟩
      | step _ s' hstep _ _ _ =>
          rw [tourStep_none_iff.mpr hempty] at hstep
          exact absurd hstep (by simp)
  | step s s' hstep tr n hrest ih =>
      cases h2 with
      | halt _ hempty =>
          rw [tourStep_none_iff.mpr hempty] at hstep
          exact absurd hstep (by simp)
      | step _ s'' hstep2 tr' n' hrest2 =>
          rw [hstep] at hstep2
          obtain rfl : s' = s'' := Option.some.inj hstep2
          obtain ⟨htr, hn⟩ := ih hrest2
          exact ⟨by rw [htr], by rw [hn]⟩

/-- At the end of a run the candidate set from the final square is empty, and
if the run started in the active-run invariant the final board still
satisfies it (so the final square still holds `1`). -/
theorem makeMoveRun_final (B : Board) (boardX boardY kr kc : Int) :
    findMovesFromSquare (makeMoveRun B boardX boardY kr kc).knightRow
      (makeMoveRun B boardX boardY kr kc).knightCol boardX boardY
      (makeMoveRun B boardX boardY kr kc).board = [] ∧
    (UniqueCurrent boardX boardY (B, kr, kc) →
      UniqueCurrent boardX boardY ((makeMoveRun B boardX boardY kr kc).board,
        (makeMoveRun B boardX boardY kr kc).knightRow,
        (makeMoveRun B boardX boardY kr kc).knightCol)) := by
  induction B, boardX, boardY, kr, kc using makeMoveRun.induct with
  | case1 B bX bY kr kc h =>
      rw [makeMoveRun_halt h]
      exact ⟨tourStep_none_iff.mp h, fun hinv => hinv⟩
  | case2 B bX bY kr kc s' h ih =>
      rw [makeMoveRun_step h]
      exact ⟨ih.1, fun hinv => ih.2 (tourStep_uniqueCurrent h hinv)⟩

/-- One more iteration than the number of moves `makeMove` makes is enough
for the step iteration to have halted: the recursion terminates. -/
theorem iterTour_run_halts (B : Board) (boardX boardY kr kc : Int) :
    iterTour boardX boardY (B, kr, kc)
      ((makeMoveRun B boardX boardY kr kc).movesMade + 1) = none := by
  induction B, boardX, boardY, kr, kc using makeMoveRun.induct with
  | case1 B bX bY kr kc h =>
      rw [makeMoveRun_halt h]
      simp [iterTour, h]
  | case2 B bX bY kr kc s' h ih =>
      rw [makeMoveRun_step h]
      simp only
      rw [iterTour, h]
      simpa using ih

/-- C1: at every state of the Tour Driver whose candidate set is non-empty,
the candidate chosen by `makeMove` — `array[findMinimumIndex(sizes)]`, the
square the step moves to — has minimal second-order count (candidates of the
candidate, on the pre-move board) among all first-order candidates, and every
candidate strictly earlier in the Move Generator's fixed offset order has a
strictly larger second-order count, so the chosen one is the first candidate
attaining the minimum. -/
theorem claim_C1_min_selection (boardX boardY : Int) (B : Board) (kr kc : Int)
    (h : findMovesFromSquare kr kc boardX boardY B ≠ []) :
    ∃ i, i < (findMovesFromSquare kr kc boardX boardY B).length ∧
      chosenMove boardX boardY B kr kc =
        (findMovesFromSquare kr kc boardX boardY B).getD i (0, 0) ∧
      (∀ j, j < (findMovesFromSquare kr kc boardX boardY B).length →
        secondOrderCount boardX boardY B (chosenMove boardX boardY B kr kc) ≤
          secondOrderCount boardX boardY B
            ((findMovesFromSquare kr kc boardX boardY B).getD j (0, 0))) ∧
      (∀ j, j < i →
        secondOrderCount boardX boardY B (chosenMove boardX boardY B kr kc) <
          secondOrderCount boardX boardY B
            ((findMovesFromSquare kr kc boardX boardY B).getD j (0, 0))) ∧
      tourStep boardX boardY (B, kr, kc) =
        some (updateBoard (updateBoard B kr kc 2) (chosenMove boardX boardY B kr kc).1
                (chosenMove boardX boardY B kr kc).2 1,
              (chosenMove boardX boardY B kr kc).1,
              (chosenMove boardX boardY B kr kc).2) := by
  have hlen : (sizesFor boardX boardY B (findMovesFromSquare kr kc boardX boardY B)).length =
      (findMovesFromSquare kr kc boardX boardY B).length := List.length_map _ _
  have hne : sizesFor boardX boardY B (findMovesFromSquare kr kc boardX boardY B) ≠ [] := by
    intro hc
    apply h
    apply List.length_eq_zero.mp
    rw [← hlen, hc]
    rfl
  obtain ⟨hlt, hmin, hfirst⟩ := findMinimumIndex_spec _ hne
  rw [hlen] at hlt
  have hgetD : ∀ j, j < (findMovesFromSquare kr kc boardX boardY B).length →
      (sizesFor boardX boardY B (findMovesFromSquare kr kc boardX boardY B)).getD j 0 =
        secondOrderCount boardX boardY B
          ((findMovesFromSquare kr kc boardX boardY B).getD j (0, 0)) :=
    fun j hj => getD_map _ _ (0, 0) _ j hj
  have hchosen : chosenMove boardX boardY B kr kc =
      (findMovesFromSquare kr kc boardX boardY B).getD
        (findMinimumIndex (sizesFor boardX boardY B
          (findMovesFromSquare kr kc boardX boardY B))) (0, 0) := rfl
  refine ⟨findMinimumIndex (sizesFor boardX boardY B
    (findMovesFromSquare kr kc boardX boardY B)), hlt, hchosen, ?_, ?_, ?_⟩
  · intro j hj
    rw [hchosen, ← hgetD _ hlt, ← hgetD _ hj]
    exact hmin j (by rwa [hlen])
  · intro j hj
    rw [hchosen, ← hgetD _ hlt, ← hgetD _ (lt_trans hj hlt)]
    exact hfirst j hj
  · have hsome : tourStep boardX boardY (B, kr, kc) ≠ none :=
      fun hc => h (tourStep_none_iff.mp hc)
    obtain ⟨s', hs'⟩ := Option.ne_none_iff_exists'.mp hsome
    obtain ⟨-, -, heq⟩ := tourStep_some_elim hs'
    rw [hs', heq]

/-- Witness for C1: the 3×3 board with the knight just placed at (0,0). -/
theorem claim_C1_min_selection_witness :
    ∃ i, i < (findMovesFromSquare 0 0 3 3 (initBoard 0 0)).length ∧
      chosenMove 3 3 (initBoard 0 0) 0 0 =
        (findMovesFromSquare 0 0 3 3 (initBoard 0 0)).getD i (0, 0) ∧
      (∀ j, j < (findMovesFromSquare 0 0 3 3 (initBoard 0 0)).length →
        secondOrderCount 3 3 (initBoard 0 0) (chosenMove 3 3 (initBoard 0 0) 0 0) ≤
          secondOrderCount 3 3 (initBoard 0 0)
            ((findMovesFromSquare 0 0 3 3 (initBoard 0 0)).getD j (0, 0))) ∧
      (∀ j, j < i →
        secondOrderCount 3 3 (initBoard 0 0) (chosenMove 3 3 (initBoard 0 0) 0 0) <
          secondOrderCount 3 3 (initBoard 0 0)
            ((findMovesFromSquare 0 0 3 3 (initBoard 0 0)).getD j (0, 0))) ∧
      tourStep 3 3 (initBoard 0 0, 0, 0) =
        some (updateBoard (updateBoard (initBoard 0 0) 0 0 2)
                (chosenMove 3 3 (initBoard 0 0) 0 0).1
                (chosenMove 3 3 (initBoard 0 0) 0 0).2 1,
              (chosenMove 3 3 (initBoard 0 0) 0 0).1,
              (chosenMove 3 3 (initBoard 0 0) 0 0).2) :=
  claim_C1_min_selection 3 3 (initBoard 0 0) 0 0 (by decide)

/-- C2: for any board dimensions at least 1×1 and any valid (on-board)
0-indexed start square, the Tour Driver's recursion terminates — iterating
its step one more time than the move count it returns has halted — and the
final move count never exceeds rows·cols − 1. -/
theorem claim_C2_terminates_and_bounded (rows cols startRow startCol : Int)
    (hrows : 1 ≤ rows) (hcols : 1 ≤ cols) (hr : 0 ≤ startRow) (hr' : startRow < rows)
    (hc : 0 ≤ startCol) (hc' : startCol < cols) :
    makeMove (initBoard startRow startCol) rows cols startRow startCol 0 ≤
      rows.toNat * cols.toNat - 1 ∧
    iterTour rows cols (initBoard startRow startCol, startRow, startCol)
      (makeMove (initBoard startRow startCol) rows cols startRow startCol 0 + 1) =
      none := by
  have hon : isOnBoard startRow startCol rows cols = true :=
    isOnBoard_iff.mpr ⟨hr, hr', hc, hc'⟩
  have hB : initBoard startRow startCol startRow startCol ≠ 2 := by
    unfold initBoard
    rw [updateBoard_same]
    omega
  have hbound := makeMoveRun_moves_lt (initBoard startRow startCol) rows cols
    startRow startCol hon hB
  rw [unvisitedCount_initBoard] at hbound
  have hmm : makeMove (initBoard startRow startCol) rows cols startRow startCol 0 =
      (makeMoveRun (initBoard startRow startCol) rows cols startRow startCol).movesMade := by
    simp [makeMove]
  constructor
  · rw [hmm]
    omega
  · rw [hmm]
    exact iterTour_run_halts _ _ _ _ _

/-- Witness for C2: the 3×3 board started at (0,0). -/
theorem claim_C2_terminates_and_bounded_witness :
    makeMove (initBoard 0 0) 3 3 0 0 0 ≤ (3 : Int).toNat * (3 : Int).toNat - 1 ∧
    iterTour 3 3 (initBoard 0 0, 0, 0) (makeMove (initBoard 0 0) 3 3 0 0 0 + 1) = none :=
  claim_C2_terminates_and_bounded 3 3 0 0 (by decide) (by decide) (by decide)
    (by decide) (by decide) (by decide)

/-- C3: every position the Move Generator returns — from any source position,
on or off the board, any bounds, any board state — has both coordinates in
`[0, rows) × [0, cols)` and its cell not in the `Visited` state (`2`); and the
empty sequence is a possible, non-failing result (e.g. on a 1×1 board). -/
theorem claim_C3_candidates_on_board (x y boardX boardY : Int) (B : Board)
    (p : Int × Int) (hp : p ∈ findMovesFromSquare x y boardX boardY B) :
    (0 ≤ p.1 ∧ p.1 < boardX ∧ 0 ≤ p.2 ∧ p.2 < boardY ∧ B p.1 p.2 ≠ 2) ∧
    findMovesFromSquare 0 0 1 1 (fun _ _ => 0) = [] := by
  obtain ⟨-, hon, h2⟩ := mem_findMovesFromSquare hp
  obtain ⟨h1, h2', h3, h4⟩ := isOnBoard_iff.mp hon
  exact ⟨⟨h1, h2', h3, h4, h2⟩, by decide⟩

/-- Witness for C3: candidate (2,1) from source (0,0) on an empty 3×3 board. -/
theorem claim_C3_candidates_on_board_witness :
    ((0 : Int) ≤ (((2 : Int), (1 : Int)) : Int × Int).1 ∧
      (((2 : Int), (1 : Int)) : Int × Int).1 < 3 ∧
      (0 : Int) ≤ (((2 : Int), (1 : Int)) : Int × Int).2 ∧
      (((2 : Int), (1 : Int)) : Int × Int).2 < 3 ∧
      initBoard 0 0 (((2 : Int), (1 : Int)) : Int × Int).1
        (((2 : Int), (1 : Int)) : Int × Int).2 ≠ 2) ∧
    findMovesFromSquare 0 0 1 1 (fun _ _ => 0) = [] :=
  claim_C3_candidates_on_board 0 0 3 3 (initBoard 0 0) (2, 1) (by decide)

/-- C6: the Move Generator's offset table is exactly the canonical order
starting at (2,1); its output is a subsequence (in order) of the eight
offsets applied to the source; and every emitted candidate differs from its
source by one of the eight canonical knight offsets. -/
theorem claim_C6_offset_order (x y boardX boardY : Int) (B : Board) :
    knightOffsets =
      [(2, 1), (1, 2), (-1, 2), (-2, 1), (-2, -1), (-1, -2), (1, -2), (2, -1)] ∧
    (findMovesFromSquare x y boardX boardY B).Sublist
      (knightOffsets.map (fun d => (x + d.1, y + d.2))) ∧
    ∀ p ∈ findMovesFromSquare x y boardX boardY B,
      (p.1 - x, p.2 - y) ∈ knightOffsets := by
  refine ⟨rfl, List.filter_sublist _, ?_⟩
  intro p hp
  obtain ⟨⟨d, hd, hpd⟩, -, -⟩ := mem_findMovesFromSquare hp
  subst hpd
  simpa using hd

/-- Witness for C6: candidate (2,1) from source (0,0) on an empty 3×3 board
differs from its source by the offset (2,1). -/
theorem claim_C6_offset_order_witness :
    ((((2 : Int), (1 : Int)) : Int × Int).1 - 0,
      (((2 : Int), (1 : Int)) : Int × Int).2 - 0) ∈ knightOffsets :=
  (claim_C6_offset_order 0 0 3 3 (initBoard 0 0)).2.2 (2, 1) (by decide)

/-- C10: `findMinimumIndex` is only consulted by `makeMove` when the candidate
set is non-empty; then the `sizes` vector is non-empty too (so the
unconditional read of element 0 is in bounds), and the returned index is
within both the `sizes` vector and the candidate vector, making the
out-of-range branch unreachable in every call the program makes. -/
theorem claim_C10_index_in_bounds (boardX boardY : Int) (B : Board) (kr kc : Int)
    (h : findMovesFromSquare kr kc boardX boardY B ≠ []) :
    sizesFor boardX boardY B (findMovesFromSquare kr kc boardX boardY B) ≠ [] ∧
    findMinimumIndex (sizesFor boardX boardY B
      (findMovesFromSquare kr kc boardX boardY B)) <
      (sizesFor boardX boardY B (findMovesFromSquare kr kc boardX boardY B)).length ∧
    findMinimumIndex (sizesFor boardX boardY B
      (findMovesFromSquare kr kc boardX boardY B)) <
      (findMovesFromSquare kr kc boardX boardY B).length := by
  have hlen : (sizesFor boardX boardY B (findMovesFromSquare kr kc boardX boardY B)).length =
      (findMovesFromSquare kr kc boardX boardY B).length := List.length_map _ _
  have hne : sizesFor boardX boardY B (findMovesFromSquare kr kc boardX boardY B) ≠ [] := by
    intro hc
    apply h
    apply List.length_eq_zero.mp
    rw [← hlen, hc]
    rfl
  exact ⟨hne, (findMinimumIndex_spec _ hne).1, chosenMove_index_lt h⟩

/-- Witness for C10: the 3×3 board with the knight just placed at (0,0). -/
theorem claim_C10_index_in_bounds_witness :
    sizesFor 3 3 (initBoard 0 0) (findMovesFromSquare 0 0 3 3 (initBoard 0 0)) ≠ [] ∧
    findMinimumIndex (sizesFor 3 3 (initBoard 0 0)
      (findMovesFromSquare 0 0 3 3 (initBoard 0 0))) <
      (sizesFor 3 3 (initBoard 0 0) (findMovesFromSquare 0 0 3 3 (initBoard 0 0))).length ∧
    findMinimumIndex (sizesFor 3 3 (initBoard 0 0)
      (findMovesFromSquare 0 0 3 3 (initBoard 0 0))) <
      (findMovesFromSquare 0 0 3 3 (initBoard 0 0)).length :=
  claim_C10_index_in_bounds 3 3 (initBoard 0 0) 0 0 (by decide)

/-- C4: throughout an active run — from the initial placement of the start
square, through every `makeMove` step — the state reached after any number of
steps has exactly one on-board cell in the `Current` state (`1`), namely the
knight square; and once a cell is `Visited` (`2`) it stays `2` through all
further steps, so no square is marked `Visited` more than once. -/
theorem claim_C4_unique_current_visited_monotone (rows cols startRow startCol : Int)
    (hst : isOnBoard startRow startCol rows cols = true) :
    ∀ (n : Nat) (s : Board × Int × Int),
      iterTour rows cols (initBoard startRow startCol, startRow, startCol) n = some s →
      UniqueCurrent rows cols s ∧
      ∀ (x y : Int), s.1 x y = 2 →
        ∀ (k : Nat) (t : Board × Int × Int),
          iterTour rows cols (initBoard startRow startCol, startRow, startCol) (n + k) =
            some t → t.1 x y = 2 := by
  have hinv0 : UniqueCurrent rows cols
      (initBoard startRow startCol, startRow, startCol) := by
    refine ⟨hst, ?_, ?_⟩
    · show initBoard startRow startCol startRow startCol = 1
      unfold initBoard
      exact updateBoard_same _ _ _ _
    intro p hp hp1
    simp only [initBoard, updateBoard] at hp1
    by_cases hpc : p.1 = startRow ∧ p.2 = startCol
    · exact Prod.ext_iff.mpr hpc
    · rw [if_neg hpc] at hp1
      omega
  intro n s hit
  refine ⟨iterTour_uniqueCurrent rows cols n _ s hinv0 hit, ?_⟩
  intro x y h2 k t hkt
  rw [iterTour_add rows cols k n, hit] at hkt
  exact iterTour_visited_persist rows cols k s t x y h2 hkt

/-- Witness for C4: the initial state of a 3×3 run started at (0,0). -/
theorem claim_C4_unique_current_visited_monotone_witness :
    UniqueCurrent 3 3 (initBoard 0 0, 0, 0) ∧
    ∀ (x y : Int), (initBoard 0 0, (0 : Int), (0 : Int)).1 x y = 2 →
      ∀ (k : Nat) (t : Board × Int × Int),
        iterTour 3 3 (initBoard 0 0, 0, 0) (0 + k) = some t → t.1 x y = 2 :=
  claim_C4_unique_current_visited_monotone 3 3 0 0 (by decide) 0
    (initBoard 0 0, 0, 0) rfl

/-- C5: after the Tour Driver halts, `main` prints the success message exactly
when the final move count equals rows·cols − 1, prints the failure message
exactly otherwise, and no other outcome message is possible. -/
theorem claim_C5_exit_report (rows cols startRow startCol : Int) :
    ((mainOutcome rows cols startRow startCol).2 = "Tour Completed!" ↔
      ((mainOutcome rows cols startRow startCol).1 : Int) = rows * cols - 1) ∧
    ((mainOutcome rows cols startRow startCol).2 = "No More Moves!" ↔
      ¬((mainOutcome rows cols startRow startCol).1 : Int) = rows * cols - 1) ∧
    ((mainOutcome rows cols startRow startCol).2 = "Tour Completed!" ∨
      (mainOutcome rows cols startRow startCol).2 = "No More Moves!") := by
  have hneq : ("Tour Completed!" : String) ≠ "No More Moves!" := by decide
  have h1 : (mainOutcome rows cols startRow startCol).1 =
      makeMove (initBoard startRow startCol) rows cols startRow startCol 0 := rfl
  have h2 : (mainOutcome rows cols startRow startCol).2 =
      exitMessage rows cols
        (makeMove (initBoard startRow startCol) rows cols startRow startCol 0) := rfl
  rw [h1, h2]
  by_cases hm : ((makeMove (initBoard startRow startCol) rows cols startRow startCol 0 :
      Nat) : Int) = rows * cols - 1
  · rw [exitMessage, if_pos hm]
    exact ⟨⟨fun _ => hm, fun _ => rfl⟩,
      ⟨fun hc => absurd hc hneq, fun hc => absurd hm hc⟩, Or.inl rfl⟩
  · rw [exitMessage, if_neg hm]
    exact ⟨⟨fun hc => absurd hc (fun hc' => hneq hc'.symm), fun hc => absurd hc hm⟩,
      ⟨fun _ => hm, fun _ => rfl⟩, Or.inr rfl⟩

/-- C7: the tour computation is deterministic.  Any two runs of the driver
relation from the same (board, bounds, start) state produce the same visited
sequence and the same final move count — both equal to what the `makeMove`
function computes, which itself is a run of the relation. -/
theorem claim_C7_deterministic (boardX boardY : Int) (s : Board × Int × Int)
    (tr₁ tr₂ : List (Int × Int)) (n₁ n₂ : Nat)
    (h1 : TourRun boardX boardY s tr₁ n₁) (h2 : TourRun boardX boardY s tr₂ n₂) :
    (tr₁ = tr₂ ∧ n₁ = n₂) ∧
    tr₁ = (makeMoveRun s.1 boardX boardY s.2.1 s.2.2).trace ∧
    n₁ = (makeMoveRun s.1 boardX boardY s.2.1 s.2.2).movesMade := by
  have hfun := tourRun_makeMoveRun boardX boardY s.1 s.2.1 s.2.2
  simp only [Prod.mk.eta] at hfun
  obtain ⟨htr, hn⟩ := tourRun_deterministic h1 hfun
  exact ⟨tourRun_deterministic h1 h2, htr, hn⟩

/-- Witness for C7: two halting runs on the 1×1 board agree. -/
theorem claim_C7_deterministic_witness :
    (([] : List (Int × Int)) = [] ∧ (0 : Nat) = 0) ∧
    ([] : List (Int × Int)) =
      (makeMoveRun ((initBoard 0 0, (0 : Int), (0 : Int)) : Board × Int × Int).1 1 1
        ((initBoard 0 0, (0 : Int), (0 : Int)) : Board × Int × Int).2.1
        ((initBoard 0 0, (0 : Int), (0 : Int)) : Board × Int × Int).2.2).trace ∧
    (0 : Nat) =
      (makeMoveRun ((initBoard 0 0, (0 : Int), (0 : Int)) : Board × Int × Int).1 1 1
        ((initBoard 0 0, (0 : Int), (0 : Int)) : Board × Int × Int).2.1
        ((initBoard 0 0, (0 : Int), (0 : Int)) : Board × Int × Int).2.2).movesMade :=
  claim_C7_deterministic 1 1 (initBoard 0 0, 0, 0) [] [] 0 0
    (TourRun.halt _ (by decide)) (TourRun.halt _ (by decide))

/-- C8: on the 1×1 board started at its single cell the driver halts at once
with move count 0, `main`'s exit report classifies this as a completed tour
(0 = 1·1 − 1), yet the interactive configuration's dimension prompt (inclusive
range 3–10) never accepts the value 1. -/
theorem claim_C8_one_by_one_board :
    makeMove (initBoard 0 0) 1 1 0 0 0 = 0 ∧
    (mainOutcome 1 1 0 0).2 = "Tour Completed!" ∧
    inputIntegerAccepts 3 10 1 = false := by
  have hstep : tourStep 1 1 ((initBoard 0 0, 0, 0) : Board × Int × Int) = none :=
    tourStep_none_iff.mpr (by decide)
  have hrun : makeMoveRun (initBoard 0 0) 1 1 0 0 = ⟨initBoard 0 0, 0, 0, [], 0⟩ :=
    makeMoveRun_halt hstep
  have hcount : makeMove (initBoard 0 0) 1 1 0 0 0 = 0 := by
    simp [makeMove, hrun]
  refine ⟨hcount, ?_, by decide⟩
  have h2 : (mainOutcome 1 1 0 0).2 =
      exitMessage 1 1 (makeMove (initBoard 0 0) 1 1 0 0 0) := rfl
  rw [h2, hcount]
  decide

/-- C9: when the Tour Driver halts (the candidate set from the final square is
empty), the last-occupied square is left in the `Current` state (`1`), not
promoted to `Visited` (`2`); and running `makeMove` again from that halted
state changes nothing — no board cell changes after the final recorded step. -/
theorem claim_C9_final_square_left_current (boardX boardY : Int) (B : Board)
    (kr kc : Int) (hinv : UniqueCurrent boardX boardY (B, kr, kc)) :
    findMovesFromSquare (makeMoveRun B boardX boardY kr kc).knightRow
      (makeMoveRun B boardX boardY kr kc).knightCol boardX boardY
      (makeMoveRun B boardX boardY kr kc).board = [] ∧
    (makeMoveRun B boardX boardY kr kc).board
      (makeMoveRun B boardX boardY kr kc).knightRow
      (makeMoveRun B boardX boardY kr kc).knightCol = 1 ∧
    makeMoveRun (makeMoveRun B boardX boardY kr kc).board boardX boardY
      (makeMoveRun B boardX boardY kr kc).knightRow
      (makeMoveRun B boardX boardY kr kc).knightCol =
      ⟨(makeMoveRun B boardX boardY kr kc).board,
       (makeMoveRun B boardX boardY kr kc).knightRow,
       (makeMoveRun B boardX boardY kr kc).knightCol, [], 0⟩ := by
  obtain ⟨hempty, hfinv⟩ := makeMoveRun_final B boardX boardY kr kc
  obtain ⟨-, hcur, -⟩ := hfinv hinv
  exact ⟨hempty, hcur, makeMoveRun_halt (tourStep_none_iff.mpr hempty)⟩

/-- Witness for C9: the 3×3 run started at (0,0). -/
theorem claim_C9_final_square_left_current_witness :
    findMovesFromSquare (makeMoveRun (initBoard 0 0) 3 3 0 0).knightRow
      (makeMoveRun (initBoard 0 0) 3 3 0 0).knightCol 3 3
      (makeMoveRun (initBoard 0 0) 3 3 0 0).board = [] ∧
    (makeMoveRun (initBoard 0 0) 3 3 0 0).board
      (makeMoveRun (initBoard 0 0) 3 3 0 0).knightRow
      (makeMoveRun (initBoard 0 0) 3 3 0 0).knightCol = 1 ∧
    makeMoveRun (makeMoveRun (initBoard 0 0) 3 3 0 0).board 3 3
      (makeMoveRun (initBoard 0 0) 3 3 0 0).knightRow
      (makeMoveRun (initBoard 0 0) 3 3 0 0).knightCol =
      ⟨(makeMoveRun (initBoard 0 0) 3 3 0 0).board,
       (makeMoveRun (initBoard 0 0) 3 3 0 0).knightRow,
       (makeMoveRun (initBoard 0 0) 3 3 0 0).knightCol, [], 0⟩ :=
  claim_C9_final_square_left_current 3 3 (initBoard 0 0) 0 0
    (by unfold UniqueCurrent; decide)

end KnightTour
